import Mathlib

/-!
# Verification of the vis_augmenter vega helpers

A shallow embedding of `src/plugins/vis_augmenter/public/vega/helpers.ts`
(OpenSearch Dashboards).  JavaScript numbers appearing as millisecond
timestamps, bucket keys and counters are modelled as `Int`; a datatable row
(a JS object) is an association list from field keys to integer values; the
fallible `getXAxisId` (which dereferences `filter(...)[0]` and throws a
`TypeError` when the filter result is empty) is modelled with `Option`.

The two unbounded `while` loops of `addMissingRowsToTableBounds` are
modelled twice: once as total functions guarded by `0 < step` (the loops
only terminate for positive intervals), and once as fuel-indexed functions
that faithfully reproduce the potential divergence for non-positive
intervals.
-/

namespace VisAugmenter

/-- A datatable row: a JS object mapping field keys to numeric values.
Keys are unique in every row the code constructs. -/
abbrev Row := List (String × Int)

/-- `row[k]`: the value bound to key `k`, if present. -/
def rowGet (r : Row) (k : String) : Option Int :=
  match r with
  | [] => none
  | p :: t => if p.1 = k then some p.2 else rowGet t k

/-- `row[k] as number`, with lodash `get(row, k, 0)` semantics: the bound
value, or `0` when the key is absent. -/
def rowGetI (r : Row) (k : String) : Int :=
  (rowGet r k).getD 0

/-- `row[k] = v`: overwrite the binding for `k` when present, otherwise
append it at the end (JS property insertion order). -/
def rowSet (r : Row) (k : String) (v : Int) : Row :=
  match r with
  | [] => [(k, v)]
  | p :: t => if p.1 = k then (k, v) :: t else p :: rowSet t k v

/-- `OpenSearchDashboardsDatatableColumn`: the fields the helpers read. -/
structure Column where
  id : String
  name : String
  metaType : Option String := none
deriving DecidableEq, Repr

/-- `OpenSearchDashboardsDatatable`. -/
structure Datatable where
  columns : List Column
  rows : List Row
deriving DecidableEq, Repr

/-- The fields of the dynamically-typed `dimensions` object that the
helpers read, after the external library conversions
(`moment.duration(...).asMilliseconds()`, `new Date(...).valueOf()`)
have produced plain numbers. -/
structure Dimensions where
  xLabel : String
  intervalMillis : Int
  boundsMin : Int
  boundsMax : Int
deriving DecidableEq, Repr

/-- `PointInTimeEvent`: only the timestamp is read by the helpers. -/
structure PointInTimeEvent where
  timestamp : Int
deriving DecidableEq, Repr

/-- `visLayer.pluginResource`: the id/name pair naming an event set. -/
structure PluginResource where
  id : String
  name : String
deriving DecidableEq, Repr

/-- `PointInTimeEventsVisLayer`: the fields the helpers read. -/
structure PointInTimeEventsVisLayer where
  pluginResource : PluginResource
  events : List PointInTimeEvent
deriving DecidableEq, Repr

/-- Modelled from the spec: the constant `VIS_LAYER_COLUMN_TYPE` is
imported from the plugin root, whose source is not part of this fragment;
the spec calls the kind tag of an event-set column "event-marker". -/
def VIS_LAYER_COLUMN_TYPE : String := "event-marker"

/-- `getXAxisId`: `columns.filter((column) => column.name === dimensions.x.label)[0].id`.
The `[0]` of an empty filter result is `undefined` and `.id` throws; this
is the `none` case. -/
def getXAxisId (dimensions : Dimensions) (columns : List Column) : Option String :=
  ((columns.filter (fun column => column.name = dimensions.xLabel)).head?).map
    (fun column => column.id)

/-- The single-quote character, used in the vega filter expressions. -/
def squote : String := String.singleton (Char.ofNat 39)

/-- `generateVisLayerFilterString` from the source: map each column id to
a `datum[...] > 0` predicate and join with a disjunction, or the literal
false predicate when there are no ids. -/
def generateVisLayerFilterString (visLayerColumnIds : List String) : String :=
  if ¬ visLayerColumnIds.isEmpty then
    let filterString := visLayerColumnIds.map
      (fun visLayerColumnId => "datum[" ++ squote ++ visLayerColumnId ++ squote ++ "] > 0")
    String.intercalate " || " filterString
  else
    "false"

/-! ## Bounds extension (`addMissingRowsToTableBounds`) -/

/-- The prepend loop, total form (guarded by `0 < step`; the source loop
`while (curStartTime > chartStartTime)` only terminates for positive
intervals): step `cur` down by `step` and unshift a fresh row each time,
until `cur ≤ target`. -/
def prependRows (x : String) (target step cur : Int) (rows : List Row) : List Row :=
  if h : 0 < step ∧ target < cur then
    prependRows x target step (cur - step) ([(x, cur - step)] :: rows)
  else
    rows
termination_by (cur - target).toNat
decreasing_by
  have h1 := h.1
  have h2 := h.2
  omega

/-- The append loop, total form: step `cur` up by `step` and push a fresh
row each time, until `target ≤ cur`. -/
def appendRows (x : String) (target step cur : Int) (rows : List Row) : List Row :=
  if h : 0 < step ∧ cur < target then
    appendRows x target step (cur + step) (rows ++ [[(x, cur + step)]])
  else
    rows
termination_by (target - cur).toNat
decreasing_by
  have h1 := h.1
  have h2 := h.2
  omega

/-- The empty-table synthesis loop, total form: push a row for every
`cur`, `cur + step`, ... while `cur ≤ stop`. -/
def synthRows (x : String) (stop step cur : Int) : List Row :=
  if h : 0 < step ∧ cur ≤ stop then
    [(x, cur)] :: synthRows x stop step (cur + step)
  else
    []
termination_by (stop - cur + 1).toNat
decreasing_by
  have h1 := h.1
  have h2 := h.2
  omega

/-- `addMissingRowsToTableBounds`: clone the table, then pad its row
sequence out to the declared chart bounds.  `none` models the TypeError
thrown by `getXAxisId` when no column carries the x-axis label. -/
def addMissingRowsToTableBounds (datatable : Datatable) (dimensions : Dimensions) :
    Option Datatable :=
  match getXAxisId dimensions datatable.columns with
  | none => none
  | some xAxisId =>
    let intervalMillis := dimensions.intervalMillis
    let chartStartTime := dimensions.boundsMin
    let chartEndTime := dimensions.boundsMax
    match hr : datatable.rows with
    | [] =>
      some { datatable with rows := synthRows xAxisId chartEndTime intervalMillis chartStartTime }
    | first :: rest =>
      let dataStartTime := rowGetI first xAxisId
      let dataEndTime :=
        rowGetI ((first :: rest).getLast (by simp)) xAxisId
      let rows1 := prependRows xAxisId chartStartTime intervalMillis dataStartTime datatable.rows
      let rows2 := appendRows xAxisId chartEndTime intervalMillis dataEndTime rows1
      some { datatable with rows := rows2 }

/-! ### Fuel-indexed loop variants, reproducing the source loops exactly
(no positivity guard).  `none` means the loop has not reached its exit
condition within `fuel` iterations; divergence of the source loop is
`∀ fuel, ... = none`. -/

/-- Fueled prepend loop. -/
def prependRowsF (x : String) (target step : Int) :
    Nat → Int → List Row → Option (List Row)
  | fuel, cur, rows =>
    if target < cur then
      match fuel with
      | 0 => none
      | fuel' + 1 => prependRowsF x target step fuel' (cur - step) ([(x, cur - step)] :: rows)
    else
      some rows

/-- Fueled append loop. -/
def appendRowsF (x : String) (target step : Int) :
    Nat → Int → List Row → Option (List Row)
  | fuel, cur, rows =>
    if cur < target then
      match fuel with
      | 0 => none
      | fuel' + 1 => appendRowsF x target step fuel' (cur + step) (rows ++ [[(x, cur + step)]])
    else
      some rows

/-! ## Event binning (`addPointInTimeEventsLayersToTable`) -/

/-- `rows[i][x] as number` for the cursor search. -/
def rowKeyAt (x : String) (rows : List Row) (i : Nat) : Int :=
  rowGetI (rows.getD i []) x

/-- The cursor search: the source `while (rowIndex < rows.length - 1)`
loop for one timestamp.  Returns the target row index and the cursor
value at which the loop stopped (`break` leaves `rowIndex` at the window
where the insert happened); `none` when the loop guard fails immediately
(the timestamp is silently dropped). -/
def searchFrom (x : String) (rows : List Row) (t : Int) (i : Nat) :
    Option (Nat × Nat) :=
  if h : i < rows.length - 1 then
    -- smallerVal = rows[i][x], higherVal = rows[i+1][x]
    if t ≤ rowKeyAt x rows i then
      some (i, i)
    else if t ≤ rowKeyAt x rows (i + 1) then
      some ((if (t - rowKeyAt x rows i).natAbs ≤ (t - rowKeyAt x rows (i + 1)).natAbs
        then i else i + 1), i)
    else if i + 1 = rows.length - 1 then
      some (i + 1, i)
    else
      searchFrom x rows t (i + 1)
  else
    none
termination_by rows.length - 1 - i
decreasing_by omega

/-- The insert: `rows[j][colId] = get(rows[j], colId, 0) + 1`, mutating
the row object in place. -/
def incrAt (colId : String) (rows : List Row) (j : Nat) : List Row :=
  rows.set j (rowSet (rows.getD j []) colId (rowGetI (rows.getD j []) colId + 1))

/-- The `sortedTimestamps.forEach` loop: bin each timestamp in order,
carrying the cursor over from one timestamp to the next. -/
def binLoop (x colId : String) : Nat → List Row → List Int → List Row
  | _, rows, [] => rows
  | i, rows, t :: rest =>
    match searchFrom x rows t i with
    | some (j, i') => binLoop x colId i' (incrAt colId rows j) rest
    | none => binLoop x colId i rows rest

/-- One event set's timestamps: `events.map(e => e.timestamp).sort((a, b) => a - b)`. -/
def sortedTimestampsOf (visLayer : PointInTimeEventsVisLayer) : List Int :=
  (visLayer.events.map (fun event => event.timestamp)).mergeSort (fun a b => a ≤ b)

/-- The `visLayers.every` callback body, iterated over the layer list.
`Array.prototype.every` stops at the first callback returning `false`:
both the zero-row and the one-row special cases `return false`, so they
end the iteration for all remaining layers as well. -/
def addLayersLoop (x : String) : Datatable → List PointInTimeEventsVisLayer → Datatable
  | table, [] => table
  | table, visLayer :: rest =>
    let visLayerColumnId := visLayer.pluginResource.id
    let visLayerColumnName := visLayer.pluginResource.name
    let table1 : Datatable :=
      { table with
        columns := table.columns ++
          [{ id := visLayerColumnId, name := visLayerColumnName,
             metaType := some VIS_LAYER_COLUMN_TYPE }] }
    if table1.rows.length = 0 then
      -- `return false`: `every` short-circuits, remaining layers unprocessed
      table1
    else if table1.rows.length = 1 then
      -- `return false` again: iteration stops after this layer
      { table1 with
        rows := [rowSet (table1.rows.getD 0 []) visLayerColumnId
                  (visLayer.events.length : Int)] }
    else
      let sortedTimestamps := sortedTimestampsOf visLayer
      let rows' :=
        if sortedTimestamps.length > 0 then
          binLoop x visLayerColumnId 0 table1.rows sortedTimestamps
        else
          table1.rows
      addLayersLoop x { table1 with rows := rows' } rest

/-- `addPointInTimeEventsLayersToTable`: pad the table to the chart
bounds, then fold the event-set layers into it. -/
def addPointInTimeEventsLayersToTable (datatable : Datatable) (dimensions : Dimensions)
    (visLayers : List PointInTimeEventsVisLayer) : Option Datatable :=
  match addMissingRowsToTableBounds datatable dimensions with
  | none => none
  | some augmentedTable =>
    match getXAxisId dimensions augmentedTable.columns with
    | none => none
    | some xAxisId =>
      if ¬ visLayers.isEmpty then
        some (addLayersLoop xAxisId augmentedTable visLayers)
      else
        some augmentedTable

/-! ## Specification-side definitions -/

/-- The axis-key sequence of a row list. -/
def keysOf (x : String) (rows : List Row) : List Int :=
  rows.map (fun r => rowGetI r x)

/-- Distance between a timestamp and a bucket key. -/
def distTo (t k : Int) : Nat := (t - k).natAbs

/-- Stated from the claim (and spec §4.2/§8): row `j` is "the row whose
axis key is nearest to `t`, ties broken toward the earlier/lower row",
i.e. the least index minimizing the distance to `t`. -/
def nearestB (keys : List Int) (t : Int) (j : Nat) : Bool :=
  decide (j < keys.length) &&
    (List.range keys.length).all
      (fun j2 => distTo t (keys.getD j 0) ≤ distTo t (keys.getD j2 0)) &&
    (List.range j).all
      (fun j2 => distTo t (keys.getD j 0) < distTo t (keys.getD j2 0))

/-- Number of iterations of the synthesis loop: one row is emitted for
each `cur`, `cur + step`, ... that is `≤ stop`. -/
def synthCount (stop step cur : Int) : Nat :=
  if cur ≤ stop then ((stop - cur) / step).toNat + 1 else 0

/-- The arithmetic progression of singleton rows the synthesis loop
produces: `cur, cur + step, ...`, one row per term `≤ stop`. -/
def synthSeq (x : String) (stop step cur : Int) : List Row :=
  (List.range (synthCount stop step cur)).map
    (fun k : Nat => [(x, cur + (k : Int) * step)])

/-- Modelled from the spec: the filter-expression format the core promises
the spec augmenter (spec §6) — one greater-than-zero predicate per column
id, in input order, joined by a disjunction, or the literal false
predicate when no ids exist. -/
def filterStringSpec (ids : List String) : String :=
  match ids with
  | [] => "false"
  | _ =>
    String.intercalate " || "
      (ids.map (fun id => "datum[" ++ squote ++ id ++ squote ++ "] > 0"))

/-! ## Concrete fixtures used by counterexamples and witnesses -/

/-- A time column whose name matches the x-axis label used below. -/
def timeColumn : Column := { id := "x-id", name := "time" }

/-- An event set with three events. -/
def layerA : PointInTimeEventsVisLayer :=
  { pluginResource := { id := "res-1", name := "A" }, events := [⟨1⟩, ⟨2⟩, ⟨3⟩] }

/-- A second event set with two events. -/
def layerB : PointInTimeEventsVisLayer :=
  { pluginResource := { id := "res-2", name := "B" }, events := [⟨5⟩, ⟨6⟩] }

/-- A table with a single row at key 0. -/
def oneRowTable : Datatable := { columns := [timeColumn], rows := [[("x-id", 0)]] }

/-- Dimensions whose bounds are the single instant 0. -/
def pointDims : Dimensions :=
  { xLabel := "time", intervalMillis := 10, boundsMin := 0, boundsMax := 0 }

/-- A table with no rows at all. -/
def emptyTable : Datatable := { columns := [timeColumn], rows := [] }

/-- Dimensions with `bounds.min > bounds.max`: the synthesis loop exits
immediately, leaving the row sequence empty. -/
def reversedDims : Dimensions :=
  { xLabel := "time", intervalMillis := 10, boundsMin := 10, boundsMax := 0 }

/-- A sparse table: consecutive keys 0 and 100 differ by ten declared
intervals. -/
def sparseTable : Datatable :=
  { columns := [timeColumn], rows := [[("x-id", 0)], [("x-id", 100)]] }

/-- Dimensions spanning exactly the sparse table's keys. -/
def sparseDims : Dimensions :=
  { xLabel := "time", intervalMillis := 10, boundsMin := 0, boundsMax := 100 }

/-- A dense three-row table with keys 0, 10, 20. -/
def threeRowTable : Datatable :=
  { columns := [timeColumn], rows := [[("x-id", 0)], [("x-id", 10)], [("x-id", 20)]] }

/-- Dimensions spanning the three-row table exactly. -/
def threeDims : Dimensions :=
  { xLabel := "time", intervalMillis := 10, boundsMin := 0, boundsMax := 20 }

/-- The nearest-bucket example event set: one event at 14 (closer to key
10 than to key 20) and one at 15 (equidistant tie). -/
def tieLayer : PointInTimeEventsVisLayer :=
  { pluginResource := { id := "res-1", name := "A" }, events := [⟨14⟩, ⟨15⟩] }

/-- A table with non-decreasing but not strictly increasing keys:
0, 10, 10, 20. -/
def dupKeyTable : Datatable :=
  { columns := [timeColumn],
    rows := [[("x-id", 0)], [("x-id", 10)], [("x-id", 10)], [("x-id", 20)]] }

/-- One event at 14, whose nearest key is 10 (held by rows 1 and 2). -/
def dupKeyLayer : PointInTimeEventsVisLayer :=
  { pluginResource := { id := "res-1", name := "A" }, events := [⟨14⟩] }

/-- Dimensions whose x-axis label matches no column of the fixtures. -/
def otherDims : Dimensions :=
  { xLabel := "other", intervalMillis := 10, boundsMin := 0, boundsMax := 0 }

/-- Dimensions for the empty-input synthesis example: range 0..25 with
interval 10 (the range end is not a multiple of the interval). -/
def synthDims : Dimensions :=
  { xLabel := "time", intervalMillis := 10, boundsMin := 0, boundsMax := 25 }

/-! ## General lemmas about the embedding -/

theorem rowGet_rowSet_self (r : Row) (k : String) (v : Int) :
    rowGet (rowSet r k v) k = some v := by
  induction r with
  | nil => simp [rowSet, rowGet]
  | cons p t ih =>
    by_cases hp : p.1 = k
    · simp [rowSet, rowGet, hp]
    · simp [rowSet, rowGet, hp, ih]

theorem rowGet_rowSet_ne (r : Row) (k k2 : String) (v : Int) (hne : k2 ≠ k) :
    rowGet (rowSet r k v) k2 = rowGet r k2 := by
  have hkk : k ≠ k2 := Ne.symm hne
  induction r with
  | nil => simp [rowSet, rowGet, hkk]
  | cons p t ih =>
    by_cases hp : p.1 = k
    · simp [rowSet, rowGet, hp, hkk, hne, ih]
    · simp [rowSet, rowGet, hp, ih]

theorem rowGetI_rowSet_self (r : Row) (k : String) (v : Int) :
    rowGetI (rowSet r k v) k = v := by
  unfold rowGetI; rw [rowGet_rowSet_self]; rfl

theorem rowGetI_rowSet_ne (r : Row) (k k2 : String) (v : Int) (hne : k2 ≠ k) :
    rowGetI (rowSet r k v) k2 = rowGetI r k2 := by
  unfold rowGetI; rw [rowGet_rowSet_ne _ _ _ _ hne]

/-! ## C8: filter-expression format -/

/-- C8.  For every list of column ids, `generateVisLayerFilterString`
produces one `datum[id] > 0` predicate per id, in input order, joined by
the disjunction separator, and the literal string "false" for the empty
list — i.e. it agrees with the spec-side format description. -/
theorem generateVisLayerFilterString_spec (ids : List String) :
    generateVisLayerFilterString ids = filterStringSpec ids := by
  cases ids with
  | nil => rfl
  | cons a l => rfl

/-! ## C10: implicit axis-column precondition -/

/-- C10.  `getXAxisId` requires some column whose name equals the x-axis
label: when no column matches, the source dereferences element 0 of an
empty filter result and throws a TypeError — modelled as `none` — and so
do both exported helpers that call it. -/
theorem getXAxisId_requires_matching_column (datatable : Datatable)
    (dimensions : Dimensions) (visLayers : List PointInTimeEventsVisLayer)
    (h : ∀ c ∈ datatable.columns, c.name ≠ dimensions.xLabel) :
    getXAxisId dimensions datatable.columns = none ∧
    addMissingRowsToTableBounds datatable dimensions = none ∧
    addPointInTimeEventsLayersToTable datatable dimensions visLayers = none := by
  have hfilter :
      datatable.columns.filter (fun c => c.name = dimensions.xLabel) = [] := by
    rw [List.filter_eq_nil_iff]
    intro c hc
    simpa using h c hc
  have hx : getXAxisId dimensions datatable.columns = none := by
    unfold getXAxisId
    rw [hfilter]
    rfl
  refine ⟨hx, ?_, ?_⟩
  · unfold addMissingRowsToTableBounds
    rw [hx]
  · unfold addPointInTimeEventsLayersToTable addMissingRowsToTableBounds
    rw [hx]

/-- Witness for C10 at a concrete input. -/
theorem getXAxisId_requires_matching_column_witness :
    (∀ c ∈ emptyTable.columns, c.name ≠ otherDims.xLabel) ∧
    (getXAxisId otherDims emptyTable.columns = none ∧
     addMissingRowsToTableBounds emptyTable otherDims = none ∧
     addPointInTimeEventsLayersToTable emptyTable otherDims [layerA] = none) :=
  ⟨by decide, getXAxisId_requires_matching_column emptyTable otherDims [layerA] (by decide)⟩

/-! ## C7: frame property of the bounds extender -/

theorem prependRows_eq_append (x : String) (target step cur : Int) (rows : List Row) :
    ∃ pre, prependRows x target step cur rows = pre ++ rows := by
  generalize hn : (cur - target).toNat = n
  induction n using Nat.strong_induction_on generalizing cur rows with
  | _ n ih =>
    rw [prependRows]
    split
    · rename_i h
      obtain ⟨pre, hpre⟩ :=
        ih ((cur - step - target).toNat) (by omega) (cur - step)
          ([(x, cur - step)] :: rows) rfl
      refine ⟨pre ++ [[(x, cur - step)]], ?_⟩
      rw [hpre]
      simp
    · exact ⟨[], by simp⟩

theorem appendRows_eq_append (x : String) (target step cur : Int) (rows : List Row) :
    ∃ post, appendRows x target step cur rows = rows ++ post := by
  generalize hn : (target - cur).toNat = n
  induction n using Nat.strong_induction_on generalizing cur rows with
  | _ n ih =>
    rw [appendRows]
    split
    · rename_i h
      obtain ⟨post, hpost⟩ :=
        ih ((target - (cur + step)).toNat) (by omega) (cur + step)
          (rows ++ [[(x, cur + step)]]) rfl
      refine ⟨[[(x, cur + step)]] ++ post, ?_⟩
      rw [hpost]
      simp
    · exact ⟨[], by simp⟩

/-- C7.  The bounds extender never mutates or removes the original rows:
the output row sequence is the input row sequence with synthesized rows
prepended and/or appended only, and the column list is untouched.  (The
source additionally `cloneDeep`s its input, so the caller's object is
not modified; in this pure embedding the input value is unchanged by
construction.) -/
theorem addMissingRowsToTableBounds_frame (datatable : Datatable)
    (dimensions : Dimensions) (x : String)
    (hx : getXAxisId dimensions datatable.columns = some x) :
    ∃ res pre post,
      addMissingRowsToTableBounds datatable dimensions = some res ∧
      res.rows = pre ++ datatable.rows ++ post ∧
      res.columns = datatable.columns := by
  unfold addMissingRowsToTableBounds
  rw [hx]
  cases hr : datatable.rows with
  | nil =>
    exact ⟨_, synthRows x dimensions.boundsMax dimensions.intervalMillis
      dimensions.boundsMin, [], rfl, by simp, rfl⟩
  | cons first rest =>
    obtain ⟨pre, hpre⟩ :=
      prependRows_eq_append x dimensions.boundsMin dimensions.intervalMillis
        (rowGetI first x) (first :: rest)
    obtain ⟨post, hpost⟩ :=
      appendRows_eq_append x dimensions.boundsMax dimensions.intervalMillis
        (rowGetI ((first :: rest).getLast (by simp)) x)
        (prependRows x dimensions.boundsMin dimensions.intervalMillis
          (rowGetI first x) (first :: rest))
    refine ⟨_, pre, post, rfl, ?_, rfl⟩
    show appendRows x dimensions.boundsMax dimensions.intervalMillis
        (rowGetI ((first :: rest).getLast (by simp)) x)
        (prependRows x dimensions.boundsMin dimensions.intervalMillis
          (rowGetI first x) (first :: rest)) = pre ++ (first :: rest) ++ post
    rw [hpost, hpre]

/-- Witness for C7 at a concrete input: the sparse table padded out to
wider bounds keeps its two original rows contiguously. -/
theorem addMissingRowsToTableBounds_frame_witness :
    getXAxisId sparseDims sparseTable.columns = some "x-id" ∧
    ∃ res pre post,
      addMissingRowsToTableBounds sparseTable sparseDims = some res ∧
      res.rows = pre ++ sparseTable.rows ++ post ∧
      res.columns = sparseTable.columns :=
  ⟨by decide, addMissingRowsToTableBounds_frame sparseTable sparseDims "x-id" (by decide)⟩

/-! ## C9: the extension loops terminate exactly for positive intervals -/

theorem prependRowsF_complete (x : String) (target step : Int) (hstep : 0 < step)
    (cur : Int) (rows : List Row) :
    ∃ fuel, prependRowsF x target step fuel cur rows =
      some (prependRows x target step cur rows) := by
  generalize hn : (cur - target).toNat = n
  induction n using Nat.strong_induction_on generalizing cur rows with
  | _ n ih =>
    by_cases h : target < cur
    · obtain ⟨fuel, hfuel⟩ :=
        ih ((cur - step - target).toNat) (by omega) (cur - step)
          ([(x, cur - step)] :: rows) rfl
      refine ⟨fuel + 1, ?_⟩
      conv_rhs => rw [prependRows]
      rw [dif_pos ⟨hstep, h⟩]
      rw [prependRowsF, if_pos h]
      exact hfuel
    · refine ⟨0, ?_⟩
      rw [prependRowsF, if_neg h, prependRows,
        dif_neg (fun hc => h hc.2)]

theorem appendRowsF_complete (x : String) (target step : Int) (hstep : 0 < step)
    (cur : Int) (rows : List Row) :
    ∃ fuel, appendRowsF x target step fuel cur rows =
      some (appendRows x target step cur rows) := by
  generalize hn : (target - cur).toNat = n
  induction n using Nat.strong_induction_on generalizing cur rows with
  | _ n ih =>
    by_cases h : cur < target
    · obtain ⟨fuel, hfuel⟩ :=
        ih ((target - (cur + step)).toNat) (by omega) (cur + step)
          (rows ++ [[(x, cur + step)]]) rfl
      refine ⟨fuel + 1, ?_⟩
      conv_rhs => rw [appendRows]
      rw [dif_pos ⟨hstep, h⟩]
      rw [appendRowsF, if_pos h]
      exact hfuel
    · refine ⟨0, ?_⟩
      rw [appendRowsF, if_neg h, appendRows,
        dif_neg (fun hc => h hc.2)]

theorem prependRowsF_diverges (x : String) (target step : Int) (hstep : step ≤ 0) :
    ∀ (fuel : Nat) (cur : Int) (rows : List Row), target < cur →
      prependRowsF x target step fuel cur rows = none := by
  intro fuel
  induction fuel with
  | zero =>
    intro cur rows h
    rw [prependRowsF, if_pos h]
  | succ f ih =>
    intro cur rows h
    rw [prependRowsF, if_pos h]
    exact ih (cur - step) _ (by omega)

theorem appendRowsF_diverges (x : String) (target step : Int) (hstep : step ≤ 0) :
    ∀ (fuel : Nat) (cur : Int) (rows : List Row), cur < target →
      appendRowsF x target step fuel cur rows = none := by
  intro fuel
  induction fuel with
  | zero =>
    intro cur rows h
    rw [appendRowsF, if_pos h]
  | succ f ih =>
    intro cur rows h
    rw [appendRowsF, if_pos h]
    exact ih (cur + step) _ (by omega)

/-- C9.  When the interval is a positive number both extension loops of
`addMissingRowsToTableBounds` terminate (some finite fuel reaches the exit
condition, and the fueled loops agree with the total model); the
precondition is required, since for a non-positive interval a loop whose
guard is initially true never exits, whatever fuel it is given. -/
theorem boundsLoops_terminate_iff_positive_interval (x : String)
    (target step cur : Int) (rows : List Row) :
    (0 < step →
      (∃ fuel, prependRowsF x target step fuel cur rows =
        some (prependRows x target step cur rows)) ∧
      (∃ fuel, appendRowsF x target step fuel cur rows =
        some (appendRows x target step cur rows))) ∧
    (step ≤ 0 → target < cur →
      ∀ fuel, prependRowsF x target step fuel cur rows = none) ∧
    (step ≤ 0 → cur < target →
      ∀ fuel, appendRowsF x target step fuel cur rows = none) := by
  refine ⟨fun hstep => ⟨prependRowsF_complete x target step hstep cur rows,
    appendRowsF_complete x target step hstep cur rows⟩, ?_, ?_⟩
  · intro hstep hcur fuel
    exact prependRowsF_diverges x target step hstep fuel cur rows hcur
  · intro hstep hcur fuel
    exact appendRowsF_diverges x target step hstep fuel cur rows hcur

/-- Witness for C9 at concrete inputs: with interval 1 the prepend loop
finishes; with interval -1 it runs out of any amount of fuel. -/
theorem boundsLoops_terminate_witness :
    (∃ fuel, prependRowsF "x-id" 0 1 fuel 3 [] =
      some (prependRows "x-id" 0 1 3 [])) ∧
    (∀ fuel, prependRowsF "x-id" 0 (-1) fuel 3 [] = none) := by
  constructor
  · exact ((boundsLoops_terminate_iff_positive_interval "x-id" 0 1 3 []).1
      (by norm_num)).1
  · exact fun fuel =>
      (boundsLoops_terminate_iff_positive_interval "x-id" 0 (-1) 3 []).2.1
        (by norm_num) (by norm_num) fuel

/-! ## C1, C2, C5: the `every` short-circuit drops later event sets -/

unseal prependRows appendRows synthRows searchFrom in
/-- C1 (code bug exhibited).  With a single row after bounds extension and
two event sets, the `visLayers.every` iteration stops after the first set
(its callback returns `false` from the one-row special case), so the
second event set's column values sum to 0 across all rows even though the
set holds 2 events: conservation fails for it. -/
theorem conservation_fails_for_second_layer :
    ((addPointInTimeEventsLayersToTable oneRowTable pointDims [layerA, layerB]).map
      (fun res => (res.rows.map (fun r => rowGetI r layerB.pluginResource.id)).sum))
      = some 0 ∧
    layerB.events.length = 2 := by
  constructor
  · rfl
  · rfl

unseal prependRows appendRows synthRows searchFrom in
/-- C2 (code bug exhibited).  With an empty row sequence after bounds
extension and two event sets, the first callback `return false` ends the
`every` iteration entirely: the second event set's column descriptor is
never appended, contradicting the per-set unconditional append and the
"proceed to the next event set" behavior. -/
theorem emptyRows_halt_layer_iteration :
    ((addPointInTimeEventsLayersToTable emptyTable reversedDims [layerA, layerB]).map
      (fun res => (res.columns.map (fun c => c.id), res.rows)))
      = some (["x-id", "res-1"], []) := by rfl

unseal prependRows appendRows synthRows searchFrom in
/-- C5 (code bug exhibited).  With exactly one row and two event sets,
the one-row special case fills in the first set's count (3) but its
`return false` stops `every`, so the iteration does **not** proceed to
the next event set: the result carries no column and no count for the
second set, contradicting the code's own comment ("move on to the next
layer"). -/
theorem singleRow_halts_layer_iteration :
    addPointInTimeEventsLayersToTable oneRowTable pointDims [layerA, layerB] =
      some { columns := [timeColumn,
               { id := "res-1", name := "A", metaType := some VIS_LAYER_COLUMN_TYPE }],
             rows := [[("x-id", 0), ("res-1", 3)]] } := by rfl

/-! ## C4: density fails on sparse input; counterexample -/

unseal prependRows appendRows synthRows searchFrom in
/-- C4 (counterexample).  A non-empty input whose two rows are 100 apart
with a declared interval of 10 is returned unchanged by
`addMissingRowsToTableBounds` (its data already touches both chart
bounds): the output has 2 rows, not `floor((lastKey - firstKey)/interval) + 1
= 11`, and its consecutive keys differ by 100, not by the interval. -/
theorem density_fails_on_sparse_input :
    addMissingRowsToTableBounds sparseTable sparseDims = some sparseTable ∧
    keysOf "x-id" sparseTable.rows = [0, 100] ∧
    sparseTable.rows.length = 2 ∧
    ¬((sparseTable.rows.length : Int) = (100 - 0) / 10 + 1) ∧
    ¬((100 : Int) - 0 = 10) := by
  refine ⟨by rfl, by rfl, by rfl, by decide, by decide⟩

/-! ## C4 (amended): density for interval-dense inputs -/

/-- The synthesis loop produces exactly the arithmetic progression
starting at `cur`, stepping by `step`, of all terms `≤ stop`. -/
theorem synthRows_eq (x : String) (stop step : Int) (hstep : 0 < step) (cur : Int) :
    synthRows x stop step cur = synthSeq x stop step cur := by
  generalize hn : (stop - cur + 1).toNat = n
  induction n using Nat.strong_induction_on generalizing cur with
  | _ n ih =>
    rw [synthRows]
    by_cases h : cur ≤ stop
    · rw [dif_pos ⟨hstep, h⟩]
      rw [ih ((stop - (cur + step) + 1).toNat) (by omega) (cur + step) rfl]
      have hcount : synthCount stop step cur = synthCount stop step (cur + step) + 1 := by
        unfold synthCount
        by_cases h2 : cur + step ≤ stop
        · rw [if_pos h, if_pos h2]
          have hsplit : stop - cur = (stop - (cur + step)) + 1 * step := by ring
          rw [hsplit, Int.add_mul_ediv_right _ _ (by omega)]
          have h3 : 0 ≤ (stop - (cur + step)) / step :=
            Int.ediv_nonneg (by omega) (by omega)
          omega
        · rw [if_pos h, if_neg h2]
          have h0 : (stop - cur) / step = 0 :=
            Int.ediv_eq_zero_of_lt (by omega) (by omega)
          omega
      unfold synthSeq
      rw [hcount, List.range_succ_eq_map]
      simp only [List.map_cons, List.map_map, Nat.cast_zero, Function.comp]
      refine congrArg₂ List.cons (by norm_num) ?_
      refine List.map_congr_left ?_
      intro k _
      have hshift : cur + step + (k : Int) * step = cur + ((k : Int) + 1) * step := by
        ring
      simp only [Function.comp_apply, Nat.cast_succ]
      rw [hshift]
    · rw [dif_neg (fun hc => h hc.2)]
      unfold synthSeq synthCount
      rw [if_neg h]
      rfl


theorem rowGetI_singleton (x : String) (v : Int) : rowGetI [(x, v)] x = v := by
  simp [rowGetI, rowGet]

theorem keysOf_append (x : String) (l1 l2 : List Row) :
    keysOf x (l1 ++ l2) = keysOf x l1 ++ keysOf x l2 :=
  List.map_append _ _ _

/-- A non-empty list whose consecutive entries differ by exactly `step`
has `(last - first) / step + 1` entries. -/
theorem chain_arith_length (step : Int) (hstep : 0 < step) :
    ∀ ks : List Int, ks ≠ [] →
      List.Chain' (fun a b => b = a + step) ks →
      (ks.length : Int) = (ks.getLastD 0 - ks.headD 0) / step + 1 := by
  intro ks
  induction ks with
  | nil => intro h; exact absurd rfl h
  | cons a l ih =>
    intro _ hchain
    cases l with
    | nil => simp
    | cons b t =>
      have hab : b = a + step := (List.chain'_cons.mp hchain).1
      have hchain' := (List.chain'_cons.mp hchain).2
      have hlen := ih (by simp) hchain'
      have hlast : (a :: b :: t).getLastD 0 = (b :: t).getLastD 0 := by
        simp
      rw [hlast]
      have hd : (b :: t).headD 0 = b := rfl
      rw [hd] at hlen
      show ((b :: t).length + 1 : Int) = ((b :: t).getLastD 0 - (a :: b :: t).headD 0) / step + 1
      have hd2 : (a :: b :: t).headD 0 = a := rfl
      rw [hd2]
      have hsplit : (b :: t).getLastD 0 - a = ((b :: t).getLastD 0 - b) + 1 * step := by
        rw [hab]; ring
      rw [hsplit, Int.add_mul_ediv_right _ _ (by omega)]
      omega

/-- The keys synthesized for an empty table form a `step`-chain. -/
theorem synthSeq_chain (x : String) (stop step cur : Int) :
    List.Chain' (fun a b => b = a + step) (keysOf x (synthSeq x stop step cur)) := by
  unfold synthSeq keysOf
  rw [List.map_map]
  have hcomp : (fun r => rowGetI r x) ∘ (fun k : Nat => [(x, cur + (k : Int) * step)]) =
      fun k : Nat => cur + (k : Int) * step := by
    funext k
    simp [rowGetI_singleton]
  rw [hcomp, List.chain'_map]
  cases hN : synthCount stop step cur with
  | zero => simp
  | succ m =>
    rw [List.chain'_range_succ]
    intro i hi
    push_cast
    ring

/-- Prepending keeps the keys a `step`-chain: each unshifted row's key is
exactly one interval below the current head key. -/
theorem prependRows_chain (x : String) (target step cur : Int) (r : Row) (t : List Row)
    (hhead : rowGetI r x = cur)
    (hchain : List.Chain' (fun a b => b = a + step) (keysOf x (r :: t))) :
    prependRows x target step cur (r :: t) ≠ [] ∧
    List.Chain' (fun a b => b = a + step) (keysOf x (prependRows x target step cur (r :: t))) := by
  generalize hn : (cur - target).toNat = n
  induction n using Nat.strong_induction_on generalizing cur r t with
  | _ n ih =>
    rw [prependRows]
    split
    · rename_i hcond
      refine ih ((cur - step - target).toNat) (by omega) (cur - step)
        [(x, cur - step)] (r :: t) (rowGetI_singleton x (cur - step)) ?_ rfl
      show List.Chain' _ (rowGetI [(x, cur - step)] x :: rowGetI r x :: keysOf x t)
      rw [rowGetI_singleton]
      refine List.chain'_cons.mpr ⟨?_, hchain⟩
      rw [hhead]
      ring
    · exact ⟨by simp, hchain⟩

/-- Appending keeps the keys a `step`-chain: each pushed row's key is
exactly one interval above the current last key. -/
theorem appendRows_chain (x : String) (target step : Int) :
    ∀ (cur : Int) (rows : List Row), rows ≠ [] →
      (keysOf x rows).getLastD 0 = cur →
      List.Chain' (fun a b => b = a + step) (keysOf x rows) →
      appendRows x target step cur rows ≠ [] ∧
      List.Chain' (fun a b => b = a + step) (keysOf x (appendRows x target step cur rows)) := by
  intro cur rows hne hlast hchain
  generalize hn : (target - cur).toNat = n
  induction n using Nat.strong_induction_on generalizing cur rows with
  | _ n ih =>
    rw [appendRows]
    split
    · rename_i hcond
      refine ih ((target - (cur + step)).toNat) (by omega) (cur + step)
        (rows ++ [[(x, cur + step)]]) (by simp) ?_ ?_ rfl
      · rw [keysOf_append]
        show (keysOf x rows ++ [rowGetI [(x, cur + step)] x]).getLastD 0 = cur + step
        rw [rowGetI_singleton]
        rw [List.getLastD_eq_getLast?, List.getLast?_append]
        rfl
      · rw [keysOf_append]
        refine List.chain'_append.mpr ⟨hchain, ?_, ?_⟩
        · show List.Chain' _ [rowGetI [(x, cur + step)] x]
          exact List.chain'_singleton _
        · intro p hp q hq
          have hne2 : keysOf x rows ≠ [] := by
            unfold keysOf
            simp [hne]
          rw [List.getLast?_eq_getLast _ hne2] at hp
          have hp' : (keysOf x rows).getLast hne2 = p := by simpa using hp
          have hlast' : (keysOf x rows).getLast hne2 = cur := by
            rw [List.getLastD_eq_getLast?, List.getLast?_eq_getLast _ hne2] at hlast
            simpa using hlast
          have hkeys : keysOf x [[(x, cur + step)]] = [cur + step] := by
            unfold keysOf
            simp [rowGetI_singleton]
          rw [hkeys] at hq
          have hq' : cur + step = q := by simpa using hq
          omega
    · exact ⟨hne, hchain⟩

/-- C4 (amended).  When every pair of consecutive input-row axis keys
already differs by exactly the interval — in particular for empty input —
the bounds extender's output keys are a full interval chain and the output
row count equals `floor((lastKey - firstKey) / interval) + 1`.  (The
original claim fails for sparse inputs, whose interior gaps the code
deliberately leaves unfilled.) -/
theorem addMissingRows_density_of_dense_input (datatable : Datatable)
    (dimensions : Dimensions) (x : String)
    (hx : getXAxisId dimensions datatable.columns = some x)
    (hstep : 0 < dimensions.intervalMillis)
    (hrange : dimensions.boundsMin ≤ dimensions.boundsMax)
    (hchain : List.Chain' (fun a b => b = a + dimensions.intervalMillis)
      (keysOf x datatable.rows)) :
    ∃ res, addMissingRowsToTableBounds datatable dimensions = some res ∧
      res.rows ≠ [] ∧
      List.Chain' (fun a b => b = a + dimensions.intervalMillis) (keysOf x res.rows) ∧
      (res.rows.length : Int) =
        ((keysOf x res.rows).getLastD 0 - (keysOf x res.rows).headD 0) /
          dimensions.intervalMillis + 1 := by
  obtain ⟨cols, rows⟩ := datatable
  simp only at hx hchain
  have hlenkeys : ∀ rs : List Row, (keysOf x rs).length = rs.length := by
    intro rs
    unfold keysOf
    simp
  cases rows with
  | nil =>
    have heq : addMissingRowsToTableBounds ⟨cols, []⟩ dimensions =
        some ⟨cols, synthRows x dimensions.boundsMax dimensions.intervalMillis
          dimensions.boundsMin⟩ := by
      unfold addMissingRowsToTableBounds
      rw [hx]
    have hsheq := synthRows_eq x dimensions.boundsMax dimensions.intervalMillis hstep
      dimensions.boundsMin
    have hne : synthRows x dimensions.boundsMax dimensions.intervalMillis
        dimensions.boundsMin ≠ [] := by
      rw [hsheq]
      unfold synthSeq synthCount
      rw [if_pos hrange]
      simp
    have hch : List.Chain' (fun a b => b = a + dimensions.intervalMillis)
        (keysOf x (synthRows x dimensions.boundsMax dimensions.intervalMillis
          dimensions.boundsMin)) := by
      rw [hsheq]
      exact synthSeq_chain x _ _ _
    refine ⟨_, heq, hne, hch, ?_⟩
    have hnek : keysOf x (synthRows x dimensions.boundsMax dimensions.intervalMillis
        dimensions.boundsMin) ≠ [] := by
      unfold keysOf
      simp [hne]
    have := chain_arith_length dimensions.intervalMillis hstep _ hnek hch
    rw [hlenkeys] at this
    exact this
  | cons first rest =>
    have heq : addMissingRowsToTableBounds ⟨cols, first :: rest⟩ dimensions =
        some ⟨cols, appendRows x dimensions.boundsMax dimensions.intervalMillis
          (rowGetI ((first :: rest).getLast (by simp)) x)
          (prependRows x dimensions.boundsMin dimensions.intervalMillis
            (rowGetI first x) (first :: rest))⟩ := by
      unfold addMissingRowsToTableBounds
      rw [hx]
    obtain ⟨hpre_ne, hpre_chain⟩ :=
      prependRows_chain x dimensions.boundsMin dimensions.intervalMillis
        (rowGetI first x) first rest rfl hchain
    obtain ⟨pre, hpre⟩ :=
      prependRows_eq_append x dimensions.boundsMin dimensions.intervalMillis
        (rowGetI first x) (first :: rest)
    have hlast : (keysOf x (prependRows x dimensions.boundsMin dimensions.intervalMillis
        (rowGetI first x) (first :: rest))).getLastD 0 =
        rowGetI ((first :: rest).getLast (by simp)) x := by
      rw [hpre, keysOf_append]
      rw [List.getLastD_eq_getLast?, List.getLast?_append]
      have hg : (keysOf x (first :: rest)).getLast? =
          some (rowGetI ((first :: rest).getLast (by simp)) x) := by
        unfold keysOf
        rw [List.getLast?_map]
        rw [List.getLast?_eq_getLast _ (by simp)]
        rfl
      rw [hg]
      rfl
    obtain ⟨happ_ne, happ_chain⟩ :=
      appendRows_chain x dimensions.boundsMax dimensions.intervalMillis
        (rowGetI ((first :: rest).getLast (by simp)) x)
        (prependRows x dimensions.boundsMin dimensions.intervalMillis
          (rowGetI first x) (first :: rest))
        hpre_ne hlast hpre_chain
    refine ⟨_, heq, happ_ne, happ_chain, ?_⟩
    have hnek : keysOf x (appendRows x dimensions.boundsMax dimensions.intervalMillis
        (rowGetI ((first :: rest).getLast (by simp)) x)
        (prependRows x dimensions.boundsMin dimensions.intervalMillis
          (rowGetI first x) (first :: rest))) ≠ [] := by
      unfold keysOf
      simp [happ_ne]
    have := chain_arith_length dimensions.intervalMillis hstep _ hnek happ_chain
    rw [hlenkeys] at this
    exact this

/-- Witness for the amended C4 at a concrete input: the dense three-row
table over its exact bounds. -/
theorem addMissingRows_density_witness :
    (getXAxisId threeDims threeRowTable.columns = some "x-id" ∧
     (0 : Int) < threeDims.intervalMillis ∧
     threeDims.boundsMin ≤ threeDims.boundsMax ∧
     List.Chain' (fun a b => b = a + threeDims.intervalMillis)
       (keysOf "x-id" threeRowTable.rows)) ∧
    ∃ res, addMissingRowsToTableBounds threeRowTable threeDims = some res ∧
      res.rows ≠ [] ∧
      List.Chain' (fun a b => b = a + threeDims.intervalMillis) (keysOf "x-id" res.rows) ∧
      (res.rows.length : Int) =
        ((keysOf "x-id" res.rows).getLastD 0 - (keysOf "x-id" res.rows).headD 0) /
          threeDims.intervalMillis + 1 := by
  have hch : List.Chain' (fun a b => b = a + threeDims.intervalMillis)
      (keysOf "x-id" threeRowTable.rows) := by
    have hk : keysOf "x-id" threeRowTable.rows = [0, 10, 20] := rfl
    have hi : threeDims.intervalMillis = 10 := rfl
    rw [hk, hi]
    exact List.chain'_cons.mpr ⟨by norm_num, List.chain'_cons.mpr
      ⟨by norm_num, List.chain'_singleton _⟩⟩
  exact ⟨⟨by decide, by decide, by decide, hch⟩,
    addMissingRows_density_of_dense_input threeRowTable threeDims "x-id"
      (by decide) (by decide) (by decide) hch⟩

/-! ## C6: empty-input synthesis -/

/-- C6.  On an empty input row sequence, `addMissingRowsToTableBounds`
synthesizes the rows `rangeStart, rangeStart + interval, ...` up to
`rangeEnd` inclusive, each containing only the axis key; equal range
bounds yield exactly one row. -/
theorem addMissingRows_empty_synthesis (datatable : Datatable)
    (dimensions : Dimensions) (x : String)
    (hx : getXAxisId dimensions datatable.columns = some x)
    (hrows : datatable.rows = [])
    (hstep : 0 < dimensions.intervalMillis) :
    addMissingRowsToTableBounds datatable dimensions =
      some { datatable with
             rows := synthSeq x dimensions.boundsMax dimensions.intervalMillis
               dimensions.boundsMin } ∧
    (∀ k : Nat,
      k < synthCount dimensions.boundsMax dimensions.intervalMillis dimensions.boundsMin →
      dimensions.boundsMin + (k : Int) * dimensions.intervalMillis ≤ dimensions.boundsMax) ∧
    (dimensions.boundsMin = dimensions.boundsMax →
      synthCount dimensions.boundsMax dimensions.intervalMillis dimensions.boundsMin = 1) := by
  obtain ⟨cols, rows⟩ := datatable
  simp only at hrows hx
  subst hrows
  refine ⟨?_, ?_, ?_⟩
  · unfold addMissingRowsToTableBounds
    rw [hx]
    simp only
    rw [synthRows_eq x _ _ hstep]
  · intro k hk
    unfold synthCount at hk
    by_cases h : dimensions.boundsMin ≤ dimensions.boundsMax
    · rw [if_pos h] at hk
      have h0 : 0 ≤ (dimensions.boundsMax - dimensions.boundsMin) / dimensions.intervalMillis :=
        Int.ediv_nonneg (by omega) (by omega)
      have hk' : (k : Int) ≤
          (dimensions.boundsMax - dimensions.boundsMin) / dimensions.intervalMillis := by
        omega
      have hmul : (k : Int) * dimensions.intervalMillis ≤
          ((dimensions.boundsMax - dimensions.boundsMin) / dimensions.intervalMillis) *
            dimensions.intervalMillis :=
        mul_le_mul_of_nonneg_right hk' (by omega)
      have hle := Int.ediv_mul_le (dimensions.boundsMax - dimensions.boundsMin)
        (b := dimensions.intervalMillis) (by omega)
      omega
    · rw [if_neg h] at hk
      omega
  · intro heq
    unfold synthCount
    rw [if_pos (by omega)]
    rw [heq]
    simp

/-- Witness for C6 at a concrete input: the empty table over range 0..25
with interval 10 yields rows keyed 0, 10, 20. -/
theorem addMissingRows_empty_synthesis_witness :
    getXAxisId synthDims emptyTable.columns = some "x-id" ∧
    (addMissingRowsToTableBounds emptyTable synthDims =
      some { emptyTable with
             rows := synthSeq "x-id" synthDims.boundsMax synthDims.intervalMillis
               synthDims.boundsMin } ∧
    (∀ k : Nat,
      k < synthCount synthDims.boundsMax synthDims.intervalMillis synthDims.boundsMin →
      synthDims.boundsMin + (k : Int) * synthDims.intervalMillis ≤ synthDims.boundsMax) ∧
    (synthDims.boundsMin = synthDims.boundsMax →
      synthCount synthDims.boundsMax synthDims.intervalMillis synthDims.boundsMin = 1)) :=
  ⟨by decide,
   addMissingRows_empty_synthesis emptyTable synthDims "x-id" (by decide) rfl (by decide)⟩

/-! ## C3: nearest-bucket assignment

The plan: characterize the least distance-minimizing index (`nearestB`),
prove that the cursor search of the source's inner `while` loop always
lands on it (for strictly increasing keys, given the loop invariant that
the cursor is 0 or strictly left of the timestamp), and lift this through
the per-timestamp fold to per-row counts. -/

theorem keysOf_getD (x : String) (rows : List Row) (i : Nat) :
    (keysOf x rows).getD i 0 = rowKeyAt x rows i := by
  unfold keysOf rowKeyAt
  induction rows generalizing i with
  | nil => simp [rowGetI, rowGet]
  | cons r t ih =>
    cases i with
    | zero => simp
    | succ j => simpa using ih j

theorem keysOf_length (x : String) (rows : List Row) :
    (keysOf x rows).length = rows.length := by
  unfold keysOf
  simp

theorem pairwise_lt_getD (ks : List Int) (hp : List.Pairwise (· < ·) ks)
    (a b : Nat) (hab : a < b) (hb : b < ks.length) :
    ks.getD a 0 < ks.getD b 0 := by
  have ha : a < ks.length := lt_trans hab hb
  rw [List.getD_eq_getElem?_getD, List.getElem?_eq_getElem ha,
    List.getD_eq_getElem?_getD, List.getElem?_eq_getElem hb]
  simpa using List.pairwise_iff_getElem.mp hp a b ha hb hab

theorem nearestB_iff (keys : List Int) (t : Int) (j : Nat) :
    nearestB keys t j = true ↔
      j < keys.length ∧
      (∀ j2, j2 < keys.length → distTo t (keys.getD j 0) ≤ distTo t (keys.getD j2 0)) ∧
      (∀ j2, j2 < j → distTo t (keys.getD j 0) < distTo t (keys.getD j2 0)) := by
  unfold nearestB
  simp [List.all_eq_true, List.mem_range]
  exact and_assoc

/-- At most one row index is the least distance minimizer. -/
theorem nearestB_unique (ks : List Int) (t : Int) (j1 j2 : Nat)
    (h1 : nearestB ks t j1 = true) (h2 : nearestB ks t j2 = true) : j1 = j2 := by
  rw [nearestB_iff] at h1 h2
  obtain ⟨hl1, hmin1, hstrict1⟩ := h1
  obtain ⟨hl2, hmin2, hstrict2⟩ := h2
  rcases lt_trichotomy j1 j2 with h | h | h
  · have ha := hstrict2 j1 h
    have hb := hmin1 j2 hl2
    omega
  · exact h
  · have ha := hstrict1 j2 h
    have hb := hmin2 j1 hl1
    omega

/-- A timestamp at or left of the first key is nearest to row 0. -/
theorem nearest_left (ks : List Int) (hp : List.Pairwise (· < ·) ks)
    (hlen : 0 < ks.length) (t : Int) (h : t ≤ ks.getD 0 0) :
    nearestB ks t 0 = true := by
  rw [nearestB_iff]
  refine ⟨hlen, ?_, ?_⟩
  · intro j2 hj2
    have hord : ks.getD 0 0 ≤ ks.getD j2 0 := by
      rcases Nat.eq_zero_or_pos j2 with h0 | h0
      · rw [h0]
      · exact le_of_lt (pairwise_lt_getD ks hp 0 j2 h0 hj2)
    unfold distTo
    omega
  · intro j2 hj2
    omega

/-- A timestamp right of the last key is nearest to the last row. -/
theorem nearest_right (ks : List Int) (hp : List.Pairwise (· < ·) ks)
    (hlen : 0 < ks.length) (t : Int) (h : ks.getD (ks.length - 1) 0 < t) :
    nearestB ks t (ks.length - 1) = true := by
  rw [nearestB_iff]
  refine ⟨by omega, ?_, ?_⟩
  · intro j2 hj2
    have hord : ks.getD j2 0 ≤ ks.getD (ks.length - 1) 0 := by
      rcases Nat.lt_or_ge j2 (ks.length - 1) with h0 | h0
      · exact le_of_lt (pairwise_lt_getD ks hp j2 (ks.length - 1) h0 (by omega))
      · have : j2 = ks.length - 1 := by omega
        rw [this]
    unfold distTo
    omega
  · intro j2 hj2
    have hord : ks.getD j2 0 < ks.getD (ks.length - 1) 0 :=
      pairwise_lt_getD ks hp j2 (ks.length - 1) hj2 (by omega)
    unfold distTo
    omega

/-- Inside the window `(keys[i], keys[i+1]]`, when row `i` is at least as
close, it is the nearest row. -/
theorem nearest_window_lo (ks : List Int) (hp : List.Pairwise (· < ·) ks)
    (i : Nat) (hi : i + 1 < ks.length) (t : Int)
    (hlo : ks.getD i 0 < t) (hhi : t ≤ ks.getD (i + 1) 0)
    (hd : (t - ks.getD i 0).natAbs ≤ (t - ks.getD (i + 1) 0).natAbs) :
    nearestB ks t i = true := by
  rw [nearestB_iff]
  refine ⟨by omega, ?_, ?_⟩
  · intro j2 hj2
    unfold distTo
    rcases lt_trichotomy j2 i with h | h | h
    · have := pairwise_lt_getD ks hp j2 i h (by omega)
      omega
    · rw [h]
    · have h1 : i + 1 ≤ j2 := h
      have h2 : ks.getD (i + 1) 0 ≤ ks.getD j2 0 := by
        rcases Nat.eq_or_lt_of_le h1 with he | hl
        · rw [he]
        · exact le_of_lt (pairwise_lt_getD ks hp (i + 1) j2 hl hj2)
      omega
  · intro j2 hj2
    have := pairwise_lt_getD ks hp j2 i hj2 (by omega)
    unfold distTo
    omega

/-- Inside the window `(keys[i], keys[i+1]]`, when row `i+1` is strictly
closer, it is the nearest row. -/
theorem nearest_window_hi (ks : List Int) (hp : List.Pairwise (· < ·) ks)
    (i : Nat) (hi : i + 1 < ks.length) (t : Int)
    (hlo : ks.getD i 0 < t) (hhi : t ≤ ks.getD (i + 1) 0)
    (hd : (t - ks.getD (i + 1) 0).natAbs < (t - ks.getD i 0).natAbs) :
    nearestB ks t (i + 1) = true := by
  rw [nearestB_iff]
  refine ⟨hi, ?_, ?_⟩
  · intro j2 hj2
    unfold distTo
    rcases lt_trichotomy j2 i with h | h | h
    · have := pairwise_lt_getD ks hp j2 i h (by omega)
      omega
    · rw [h]
      omega
    · have h1 : i + 1 ≤ j2 := h
      rcases Nat.eq_or_lt_of_le h1 with he | hl
      · rw [he]
      · have := pairwise_lt_getD ks hp (i + 1) j2 hl hj2
        omega
  · intro j2 hj2
    unfold distTo
    rcases lt_trichotomy j2 i with h | h | h
    · have := pairwise_lt_getD ks hp j2 i h (by omega)
      omega
    · rw [h]
      omega
    · omega

theorem set_getD_self (l : List Int) (j : Nat) :
    l.set j (l.getD j 0) = l := by
  induction l generalizing j with
  | nil => rfl
  | cons a t ih =>
    cases j with
    | zero => rfl
    | succ jj =>
      show a :: t.set jj (t.getD jj 0) = a :: t
      rw [ih jj]

theorem length_incrAt (colId : String) (rows : List Row) (j : Nat) :
    (incrAt colId rows j).length = rows.length := by
  unfold incrAt
  simp

/-- Incrementing an event-set counter never changes any axis key. -/
theorem keysOf_incrAt (x colId : String) (hne : colId ≠ x) (rows : List Row) (j : Nat) :
    keysOf x (incrAt colId rows j) = keysOf x rows := by
  unfold incrAt
  show keysOf x (rows.set j _) = keysOf x rows
  unfold keysOf
  rw [List.map_set]
  have hval : rowGetI (rowSet (rows.getD j []) colId
      (rowGetI (rows.getD j []) colId + 1)) x = rowGetI (rows.getD j []) x :=
    rowGetI_rowSet_ne _ _ _ _ (Ne.symm hne)
  rw [hval]
  have hbridge : rowGetI (rows.getD j []) x = (rows.map (fun r => rowGetI r x)).getD j 0 := by
    have := keysOf_getD x rows j
    unfold keysOf rowKeyAt at this
    omega
  rw [hbridge, set_getD_self]

theorem rowGetI_incrAt_self (colId : String) (rows : List Row) (j : Nat)
    (hj : j < rows.length) :
    rowGetI ((incrAt colId rows j).getD j []) colId =
      rowGetI (rows.getD j []) colId + 1 := by
  unfold incrAt
  rw [List.getD_eq_getElem?_getD, List.getElem?_set_self (by simpa using hj)]
  show rowGetI (rowSet (rows.getD j []) colId (rowGetI (rows.getD j []) colId + 1)) colId = _
  rw [rowGetI_rowSet_self]

theorem getD_incrAt_ne (colId : String) (rows : List Row) (j jj : Nat) (hne : jj ≠ j) :
    (incrAt colId rows j).getD jj [] = rows.getD jj [] := by
  unfold incrAt
  rw [List.getD_eq_getElem?_getD, List.getElem?_set_ne (fun h => hne h.symm),
    ← List.getD_eq_getElem?_getD]

/-- Correctness of the cursor search: starting from a cursor that is 0 or
strictly left of the timestamp, the `while` loop stops with the least
distance-minimizing row index, and leaves the cursor inside the row range,
still 0 or strictly left of the timestamp. -/
theorem searchFrom_nearest (x : String) (rows : List Row) (t : Int)
    (hp : List.Pairwise (· < ·) (keysOf x rows)) (hm : 2 ≤ rows.length) :
    ∀ i, i + 1 < rows.length → (i = 0 ∨ rowKeyAt x rows i < t) →
      ∃ j i2, searchFrom x rows t i = some (j, i2) ∧
        nearestB (keysOf x rows) t j = true ∧
        i2 + 1 < rows.length ∧ (i2 = 0 ∨ rowKeyAt x rows i2 < t) := by
  intro i
  generalize hn : rows.length - 1 - i = n
  induction n using Nat.strong_induction_on generalizing i with
  | _ n ih =>
    intro hi hinv
    rw [searchFrom, dif_pos (by omega)]
    by_cases h1 : t ≤ rowKeyAt x rows i
    · rw [if_pos h1]
      have hi0 : i = 0 := by
        rcases hinv with h | h
        · exact h
        · omega
      subst hi0
      refine ⟨0, 0, rfl, ?_, by omega, Or.inl rfl⟩
      apply nearest_left _ hp (by rw [keysOf_length]; omega)
      rw [keysOf_getD]
      exact h1
    · rw [if_neg h1]
      have hlo : rowKeyAt x rows i < t := by omega
      by_cases h2 : t ≤ rowKeyAt x rows (i + 1)
      · rw [if_pos h2]
        by_cases h3 : (t - rowKeyAt x rows i).natAbs ≤ (t - rowKeyAt x rows (i + 1)).natAbs
        · rw [if_pos h3]
          refine ⟨i, i, rfl, ?_, hi, Or.inr hlo⟩
          apply nearest_window_lo _ hp i (by rw [keysOf_length]; omega) t
          · rw [keysOf_getD]
            exact hlo
          · rw [keysOf_getD]
            exact h2
          · rw [keysOf_getD, keysOf_getD]
            exact h3
        · rw [if_neg h3]
          refine ⟨i + 1, i, rfl, ?_, hi, Or.inr hlo⟩
          apply nearest_window_hi _ hp i (by rw [keysOf_length]; omega) t
          · rw [keysOf_getD]
            exact hlo
          · rw [keysOf_getD]
            exact h2
          · rw [keysOf_getD, keysOf_getD]
            omega
      · rw [if_neg h2]
        by_cases h4 : i + 1 = rows.length - 1
        · rw [if_pos h4]
          refine ⟨i + 1, i, rfl, ?_, hi, Or.inr hlo⟩
          have hkey : rowKeyAt x rows (rows.length - 1) < t := by
            rw [← h4]
            omega
          have hnr := nearest_right (keysOf x rows) hp (by rw [keysOf_length]; omega) t
            (by rw [keysOf_length, keysOf_getD]; exact hkey)
          rw [keysOf_length, ← h4] at hnr
          exact hnr
        · rw [if_neg h4]
          exact ih (rows.length - 1 - (i + 1)) (by omega) (i + 1) rfl
            (by omega) (Or.inr (by omega))

/-- The binning fold: every timestamp of the ascending list lands exactly
on its nearest row, so each row's counter for the event-set column grows
by the number of timestamps whose nearest row it is. -/
theorem binLoop_counts (x colId : String) (hne : colId ≠ x) :
    ∀ (ts : List Int) (rows : List Row) (i : Nat),
      List.Pairwise (· < ·) (keysOf x rows) →
      2 ≤ rows.length →
      List.Pairwise (· ≤ ·) ts →
      i + 1 < rows.length →
      (∀ t ∈ ts, i = 0 ∨ rowKeyAt x rows i < t) →
      (binLoop x colId i rows ts).length = rows.length ∧
      keysOf x (binLoop x colId i rows ts) = keysOf x rows ∧
      ∀ jj, rowGetI ((binLoop x colId i rows ts).getD jj []) colId =
        rowGetI (rows.getD jj []) colId +
          (ts.countP (fun t => nearestB (keysOf x rows) t jj) : Int) := by
  intro ts
  induction ts with
  | nil =>
    intro rows i _ _ _ _ _
    refine ⟨rfl, rfl, ?_⟩
    intro jj
    simp [binLoop]
  | cons t rest ih =>
    intro rows i hp hm hts hi hinv
    obtain ⟨j, i2, hsearch, hnear, hi2, hinv2⟩ :=
      searchFrom_nearest x rows t hp hm i hi (hinv t (by simp))
    have hj : j < rows.length := by
      have := (nearestB_iff _ _ _).mp hnear
      rw [keysOf_length] at this
      exact this.1
    simp only [binLoop]
    rw [hsearch]
    have hkeys2 : keysOf x (incrAt colId rows j) = keysOf x rows :=
      keysOf_incrAt x colId hne rows j
    have hlen2 : (incrAt colId rows j).length = rows.length :=
      length_incrAt colId rows j
    have hts' : List.Pairwise (· ≤ ·) rest := (List.pairwise_cons.mp hts).2
    have htle : ∀ t2 ∈ rest, t ≤ t2 := (List.pairwise_cons.mp hts).1
    have hinv' : ∀ t2 ∈ rest, i2 = 0 ∨ rowKeyAt x (incrAt colId rows j) i2 < t2 := by
      intro t2 ht2
      rcases hinv2 with h | h
      · exact Or.inl h
      · refine Or.inr ?_
        have hsame : rowKeyAt x (incrAt colId rows j) i2 = rowKeyAt x rows i2 := by
          rw [← keysOf_getD, hkeys2, keysOf_getD]
        have := htle t2 ht2
        omega
    obtain ⟨hL, hK, hC⟩ := ih (incrAt colId rows j) i2 (by rw [hkeys2]; exact hp)
      (by omega) hts' (by omega) hinv'
    rw [hkeys2] at hK hC
    refine ⟨by rw [hL, hlen2], by rw [hK], ?_⟩
    intro jj
    rw [hC jj]
    by_cases hjj : jj = j
    · subst hjj
      rw [rowGetI_incrAt_self colId rows jj hj]
      rw [List.countP_cons_of_pos _ _ (by simpa using hnear)]
      push_cast
      ring
    · rw [getD_incrAt_ne colId rows j jj hjj]
      rw [List.countP_cons_of_neg]
      intro hcontra
      exact hjj (nearestB_unique _ _ _ _ (by simpa using hcontra) hnear)

/-- The timestamps handed to the binning loop are sorted ascending. -/
theorem sortedTimestampsOf_sorted (visLayer : PointInTimeEventsVisLayer) :
    List.Pairwise (· ≤ ·) (sortedTimestampsOf visLayer) := by
  unfold sortedTimestampsOf
  exact List.sorted_mergeSort' _

/-- Sorting is a permutation, so per-predicate counts are unchanged. -/
theorem sortedTimestampsOf_perm (visLayer : PointInTimeEventsVisLayer) :
    List.Perm (sortedTimestampsOf visLayer)
      (visLayer.events.map (fun event => event.timestamp)) :=
  List.mergeSort_perm _ _

/-- With at least two rows, processing a single layer appends its column
descriptor and bins its sorted timestamps. -/
theorem addLayersLoop_single (x : String) (table : Datatable)
    (visLayer : PointInTimeEventsVisLayer) (hm : 2 ≤ table.rows.length) :
    addLayersLoop x table [visLayer] =
      { columns := table.columns ++
          [{ id := visLayer.pluginResource.id, name := visLayer.pluginResource.name,
             metaType := some VIS_LAYER_COLUMN_TYPE }],
        rows := binLoop x visLayer.pluginResource.id 0 table.rows
          (sortedTimestampsOf visLayer) } := by
  simp only [addLayersLoop]
  rw [if_neg (by simp only [List.length_eq_zero]; intro h; rw [h] at hm; simp at hm)]
  rw [if_neg (by intro h; rw [h] at hm; omega)]
  by_cases hts : (sortedTimestampsOf visLayer).length > 0
  · rw [if_pos hts]
  · rw [if_neg hts]
    have h0 : sortedTimestampsOf visLayer = [] := List.length_eq_zero.mp (by omega)
    rw [h0]
    rfl

/-- C3.  For at least two rows with strictly increasing axis keys, the
binning of `addPointInTimeEventsLayersToTable` assigns every event
timestamp to the row whose axis key is nearest to it, with equal-distance
ties broken toward the earlier/lower row: each row's new field counts
exactly the events whose least distance-minimizing row it is.  (Strict
monotonicity replaces the claim's "non-decreasing": with duplicate keys
"the row whose key is nearest" does not single out a row.) -/
theorem addPointInTimeEventsLayersToTable_nearest (datatable : Datatable)
    (dimensions : Dimensions) (visLayer : PointInTimeEventsVisLayer)
    (augmentedTable : Datatable) (x : String)
    (hext : addMissingRowsToTableBounds datatable dimensions = some augmentedTable)
    (hx : getXAxisId dimensions augmentedTable.columns = some x)
    (hm : 2 ≤ augmentedTable.rows.length)
    (hp : List.Pairwise (· < ·) (keysOf x augmentedTable.rows))
    (hcol : visLayer.pluginResource.id ≠ x)
    (hfresh : ∀ r ∈ augmentedTable.rows, rowGetI r visLayer.pluginResource.id = 0) :
    ∃ res, addPointInTimeEventsLayersToTable datatable dimensions [visLayer] = some res ∧
      res.columns = augmentedTable.columns ++
        [{ id := visLayer.pluginResource.id, name := visLayer.pluginResource.name,
           metaType := some VIS_LAYER_COLUMN_TYPE }] ∧
      res.rows.length = augmentedTable.rows.length ∧
      ∀ jj, rowGetI (res.rows.getD jj []) visLayer.pluginResource.id =
        ((visLayer.events.map (fun event => event.timestamp)).countP
          (fun t => nearestB (keysOf x augmentedTable.rows) t jj) : Int) := by
  obtain ⟨hL, hK, hC⟩ := binLoop_counts x visLayer.pluginResource.id hcol
    (sortedTimestampsOf visLayer) augmentedTable.rows 0 hp hm
    (sortedTimestampsOf_sorted visLayer) (by omega) (fun t _ => Or.inl rfl)
  refine ⟨Datatable.mk
    (augmentedTable.columns ++
      [Column.mk visLayer.pluginResource.id visLayer.pluginResource.name
        (some VIS_LAYER_COLUMN_TYPE)])
    (binLoop x visLayer.pluginResource.id 0 augmentedTable.rows
      (sortedTimestampsOf visLayer)), ?_, rfl, hL, ?_⟩
  · unfold addPointInTimeEventsLayersToTable
    rw [hext]
    show (match getXAxisId dimensions augmentedTable.columns with
      | none => none
      | some xAxisId =>
        if ¬ ([visLayer] : List PointInTimeEventsVisLayer).isEmpty then
          some (addLayersLoop xAxisId augmentedTable [visLayer])
        else some augmentedTable) = _
    rw [hx]
    show (if ¬ ([visLayer] : List PointInTimeEventsVisLayer).isEmpty then
        some (addLayersLoop x augmentedTable [visLayer])
      else some augmentedTable) = _
    rw [if_pos (by simp)]
    rw [addLayersLoop_single x augmentedTable visLayer hm]
  · intro jj
    rw [hC jj]
    have hzero : rowGetI (augmentedTable.rows.getD jj []) visLayer.pluginResource.id = 0 := by
      by_cases hjj : jj < augmentedTable.rows.length
      · refine hfresh _ ?_
        rw [List.getD_eq_getElem?_getD, List.getElem?_eq_getElem hjj]
        exact List.getElem_mem hjj
      · rw [List.getD_eq_getElem?_getD, List.getElem?_eq_none (by omega)]
        rfl
    rw [hzero]
    rw [(sortedTimestampsOf_perm visLayer).countP_eq]
    ring

unseal List.merge List.mergeSort prependRows appendRows synthRows searchFrom in
/-- C3 (counterexample for merely non-decreasing keys).  With keys
0, 10, 10, 20 (non-decreasing, not strictly increasing) and one event at
14, the cursor advances past both rows keyed 10 and the count lands on
row index 2, not on the earlier row index 1 — but row 1 is the
earlier/lower row among the nearest ones, so the assignment is not "the
row whose axis key is nearest with ties broken toward the earlier/lower
row" read as the least distance-minimizing index. -/
theorem nearest_fails_on_duplicate_keys :
    ((addPointInTimeEventsLayersToTable dupKeyTable threeDims [dupKeyLayer]).map
      (fun res => res.rows.map (fun r => rowGetI r "res-1"))) = some [0, 0, 1, 0] ∧
    nearestB (keysOf "x-id" dupKeyTable.rows) 14 1 = true ∧
    nearestB (keysOf "x-id" dupKeyTable.rows) 14 2 = false := by
  refine ⟨by rfl, by decide, by decide⟩

unseal prependRows appendRows synthRows searchFrom in
/-- Witness for C3 at the claim's own example: rows keyed 0, 10, 20 and
events at 14 (nearer to 10) and 15 (equidistant tie, bound to 10): the
row at index 1 counts both events, rows 0 and 2 count none. -/
theorem addPointInTimeEventsLayersToTable_nearest_witness :
    (addMissingRowsToTableBounds threeRowTable threeDims = some threeRowTable ∧
     nearestB (keysOf "x-id" threeRowTable.rows) 14 1 = true ∧
     nearestB (keysOf "x-id" threeRowTable.rows) 15 1 = true) ∧
    ∃ res, addPointInTimeEventsLayersToTable threeRowTable threeDims [tieLayer] = some res ∧
      res.columns = threeRowTable.columns ++
        [{ id := tieLayer.pluginResource.id, name := tieLayer.pluginResource.name,
           metaType := some VIS_LAYER_COLUMN_TYPE }] ∧
      res.rows.length = threeRowTable.rows.length ∧
      ∀ jj, rowGetI (res.rows.getD jj []) tieLayer.pluginResource.id =
        (((tieLayer.events.map (fun event => event.timestamp)).countP
          (fun t => nearestB (keysOf "x-id" threeRowTable.rows) t jj)) : Int) :=
  ⟨⟨by rfl, by decide, by decide⟩,
   addPointInTimeEventsLayersToTable_nearest threeRowTable threeDims tieLayer
     threeRowTable "x-id" (by rfl) (by decide) (by decide) (by decide) (by decide)
     (by decide)⟩

end VisAugmenter
